import Mathlib

/-!
Verification of the pedigree layout-reconstruction core of
`src/app.py` (`sort_pedigree_blocks_by_columns` and its helpers).

Coordinates are engine-reported pixel integers, embedded as `Int`.
Python's `sorted` is a stable sort; it is embedded as
`List.insertionSort` with a reflexive total preorder, which is stable.
A Python exception escaping the function is embedded as `none`.
-/

/-- One vertex of an annotation's bounding polygon. -/
structure Vertex where
  x : Int
  y : Int
deriving DecidableEq

/-- One OCR engine record: recognized text plus bounding polygon. -/
structure Annotation where
  description : String
  vertices : List Vertex
deriving DecidableEq

/-- A normalized text block as built in `app.py` lines 124-135:
`text`, `left = min(x_coords)`, `top = min(y_coords)` and the centers. -/
structure Block where
  text : String
  left : Int
  top : Int
  center_x : ℚ
  center_y : ℚ
deriving DecidableEq

/-- Source `app.py` lines 124-135: build one block from one annotation.
`min([])` in Python raises `ValueError` (and `sum/len` would divide by
zero), so an annotation with no vertices yields `none` (an exception). -/
def extractBlock (a : Annotation) : Option Block :=
  match (a.vertices.map Vertex.x).min?, (a.vertices.map Vertex.y).min? with
  | some l, some t =>
      some { text := a.description, left := l, top := t,
             center_x := ((a.vertices.map Vertex.x).sum : ℚ) / (a.vertices.length : ℚ),
             center_y := ((a.vertices.map Vertex.y).sum : ℚ) / (a.vertices.length : ℚ) }
  | _, _ => none

/-- Source `app.py` lines 123-135: the extraction loop over `text_annotations[1:]`.
The first failing annotation aborts the loop with the exception. -/
def extractBlocks : List Annotation → Option (List Block)
  | [] => some []
  | a :: rest =>
    match extractBlock a, extractBlocks rest with
    | some b, some bs => some (b :: bs)
    | _, _ => none

/-- A block after column assignment (`app.py` lines 183-192 store the
column back into the block dict; only `text`, `left`, `top`, `column`
are read afterwards). -/
structure CBlock where
  text : String
  left : Int
  top : Int
  column : Nat
deriving DecidableEq

/-- One entry of the `gaps` list built in `app.py` lines 149-156. -/
structure Gap where
  after_x : Int
  gap_size : Int
  index : Nat
deriving DecidableEq

/-- Source `app.py` line 143: `sorted(set([b['left'] for b in blocks]))`. -/
def xPositions (blocks : List Block) : List Int :=
  List.insertionSort (· ≤ ·) (blocks.map Block.left).dedup

/-- Source `app.py` lines 149-156: the gap record between consecutive distinct
X positions; `index` runs over `range(len(x_positions) - 1)`. -/
def mkGaps (xp : List Int) : List Gap :=
  (List.range (xp.length - 1)).map fun i =>
    { after_x := xp.getD i 0,
      gap_size := xp.getD (i + 1) 0 - xp.getD i 0,
      index := i }

/-- Key order of `gaps.sort(key=..., reverse=True)` (`app.py` line 174):
descending by `gap_size`; Python's reverse sort is stable. -/
def gapGe (a b : Gap) : Prop := b.gap_size ≤ a.gap_size

instance : DecidableRel gapGe := fun a b => by unfold gapGe; infer_instance

instance : IsTotal Gap gapGe := ⟨fun a b => le_total b.gap_size a.gap_size⟩

instance : IsTrans Gap gapGe := ⟨fun _ _ _ h h' => le_trans h' h⟩

/-- Key order of the fallback `sorted(blocks, key=lambda b: (b['left'], b['top']))`
(`app.py` line 163). -/
def leftTopLe (a b : Block) : Prop :=
  a.left < b.left ∨ (a.left = b.left ∧ a.top ≤ b.top)

instance : DecidableRel leftTopLe := fun a b => by unfold leftTopLe; infer_instance

instance : IsTotal Block leftTopLe := by
  constructor
  intro a b
  unfold leftTopLe
  rcases lt_trichotomy a.left b.left with h | h | h
  · exact Or.inl (Or.inl h)
  · rcases le_total a.top b.top with h' | h'
    · exact Or.inl (Or.inr ⟨h, h'⟩)
    · exact Or.inr (Or.inr ⟨h.symm, h'⟩)
  · exact Or.inr (Or.inl h)

instance : IsTrans Block leftTopLe := by
  constructor
  intro a b c hab hbc
  unfold leftTopLe at *
  rcases hab with h1 | ⟨h1, h1'⟩ <;> rcases hbc with h2 | ⟨h2, h2'⟩
  · exact Or.inl (lt_trans h1 h2)
  · exact Or.inl (h2 ▸ h1)
  · exact Or.inl (h1 ▸ h2)
  · exact Or.inr ⟨h1.trans h2, h1'.trans h2'⟩

/-- Key order of `sorted(blocks, key=lambda b: (b['column'], b['top']))`
(`app.py` line 203). -/
def colTopLe (a b : CBlock) : Prop :=
  a.column < b.column ∨ (a.column = b.column ∧ a.top ≤ b.top)

instance : DecidableRel colTopLe := fun a b => by unfold colTopLe; infer_instance

instance : IsTotal CBlock colTopLe := by
  constructor
  intro a b
  unfold colTopLe
  rcases lt_trichotomy a.column b.column with h | h | h
  · exact Or.inl (Or.inl h)
  · rcases le_total a.top b.top with h' | h'
    · exact Or.inl (Or.inr ⟨h, h'⟩)
    · exact Or.inr (Or.inr ⟨h.symm, h'⟩)
  · exact Or.inr (Or.inl h)

instance : IsTrans CBlock colTopLe := by
  constructor
  intro a b c hab hbc
  unfold colTopLe at *
  rcases hab with h1 | ⟨h1, h1'⟩ <;> rcases hbc with h2 | ⟨h2, h2'⟩
  · exact Or.inl (lt_trans h1 h2)
  · exact Or.inl (h2 ▸ h1)
  · exact Or.inl (h1 ▸ h2)
  · exact Or.inr ⟨h1.trans h2, h1'.trans h2'⟩

/-- Source `app.py` lines 174-175: stable-sort the gaps descending by size and
keep the three largest. -/
def top3GapsOf (blocks : List Block) : List Gap :=
  (List.insertionSort gapGe (mkGaps (xPositions blocks))).take 3

/-- Source `app.py` lines 174-178: stable-sort the gaps descending by size, keep
the three largest, and sort their `after_x` values ascending. -/
def columnBoundariesOf (blocks : List Block) : List Int :=
  List.insertionSort (· ≤ ·) ((top3GapsOf blocks).map Gap.after_x)

/-- Source `app.py` lines 183-192: the if/elif chain assigning a column. -/
def assignColumn (b0 b1 b2 x : Int) : Nat :=
  if x ≤ b0 then 1 else if x ≤ b1 then 2 else if x ≤ b2 then 3 else 4

/-- Annotate every block with its column (`app.py` lines 183-192). -/
def classify (b0 b1 b2 : Int) (blocks : List Block) : List CBlock :=
  blocks.map fun b =>
    { text := b.text, left := b.left, top := b.top,
      column := assignColumn b0 b1 b2 b.left }

/-- Source `app.py` lines 195-198: the per-column histogram (`col_counts` dict,
viewed as the mapping column count, absent key = 0). -/
def colCounts (cbs : List CBlock) : Nat → Nat :=
  fun c => cbs.countP fun b => b.column == c

/-- Source `app.py` line 203: the stable sort by `(column, top)`. -/
def sortBlocksColTop (cbs : List CBlock) : List CBlock :=
  List.insertionSort colTopLe cbs

/-- Source `app.py` lines 203 and 215: the assembled output text. -/
def assembleBlocks (cbs : List CBlock) : String :=
  String.intercalate "\n" ((sortBlocksColTop cbs).map CBlock.text)

/-- Source `app.py` lines 206-212: first five blocks of each column. -/
def blocksByColumn (sortedBlocks : List CBlock) : List (Nat × List (String × Int × Int)) :=
  [1, 2, 3, 4].map fun c =>
    (c, ((sortedBlocks.filter fun b => b.column == c).take 5).map fun b =>
          (b.text, b.left, b.top))

/-- The `debug` dict of the result. Each field models one possible key;
`none` means the key is absent from the dict. The source never writes a
`strategyUsed` key, so that field is present here (for stating spec-level
claims about it) but is never set by the pipeline. -/
structure DebugInfo where
  warning : Option String := none
  totalBlocks : Option Nat := none
  uniqueXPositions : Option Nat := none
  columnBoundaries : Option (List Int) := none
  blocksPerColumn : Option (Nat → Nat) := none
  firstBlocksPerColumn : Option (List (Nat × List (String × Int × Int))) := none
  top3Gaps : Option (List (Int × Int)) := none
  strategyUsed : Option String := none

/-- The dict `{'text': ..., 'debug': ...}` returned by the sorter. -/
structure SortResult where
  text : String
  debug : DebugInfo

/-- The fallback sort of `app.py` line 163. -/
def fallbackSort (blocks : List Block) : List Block :=
  List.insertionSort leftTopLe blocks

/-- Source `app.py` lines 137-228: the part of `sort_pedigree_blocks_by_columns`
that runs after block extraction. The `match` on the boundary list is
total in practice: the list always has length 3 on that path (indexing
`column_boundaries[2]` in Python would otherwise raise `IndexError`,
hence `none` in the dead branch). -/
def pipelineCore (blocks : List Block) : Option SortResult :=
  if blocks.isEmpty then
    some { text := "", debug := {} }
  else if (mkGaps (xPositions blocks)).length < 3 then
    some { text := String.intercalate "\n" ((fallbackSort blocks).map Block.text),
           debug := { warning := some "Not enough gaps detected",
                      totalBlocks := some blocks.length,
                      uniqueXPositions := some (xPositions blocks).length } }
  else
    match columnBoundariesOf blocks with
    | [b0, b1, b2] =>
      some { text := String.intercalate "\n"
               ((sortBlocksColTop (classify b0 b1 b2 blocks)).map CBlock.text),
             debug := { totalBlocks := some blocks.length,
                        columnBoundaries := some (columnBoundariesOf blocks),
                        blocksPerColumn := some (colCounts (classify b0 b1 b2 blocks)),
                        firstBlocksPerColumn :=
                          some (blocksByColumn (sortBlocksColTop (classify b0 b1 b2 blocks))),
                        top3Gaps :=
                          some ((top3GapsOf blocks).map fun g => (g.after_x, g.gap_size)) } }
    | _ => none

/-- Source `app.py` lines 104-228, `sort_pedigree_blocks_by_columns`.
`none` models a Python exception escaping the function (caught by the
HTTP route and turned into a 500 response). -/
def sort_pedigree_blocks_by_columns (text_annotations : List Annotation) :
    Option SortResult :=
  if text_annotations.length ≤ 1 then
    some { text := "", debug := {} }
  else do
    let blocks ← extractBlocks (text_annotations.drop 1)
    pipelineCore blocks

/-!
Spec-side definitions (for refinement comparisons). Each follows the
words of `spec.md`; they are deliberately separate from the source
embedding above and are compared against it in the theorems.
-/

/-- Spec section 4.2 / claim C2's wording for column lookup: the 1-based
index of the first boundary the X value falls at-or-before, else the
last column (`columnCount` = 4). -/
def spec_column (bs : List Int) (x : Int) : Nat :=
  let i := bs.findIdx fun b => x ≤ b
  if i < bs.length then i + 1 else 4

/-- Spec section 3: `slotsPerColumn[c] = 2^(c-1)`. -/
def slotsPerColumn (c : Nat) : Nat := 2 ^ (c - 1)

/-- Spec section 4.2: `yPercent = (top - minY) / height` (0 when the
height is zero) and `slot = min(floor(yPercent * n), n - 1)`. -/
def spec_slot (minY height : Int) (n : Nat) (top : Int) : Nat :=
  let yPercent : ℚ := if height = 0 then 0 else ((top - minY : Int) : ℚ) / (height : ℚ)
  min (Int.toNat ⌊yPercent * (n : ℚ)⌋) (n - 1)

/-- A block carrying the spec's full `(column, slot)` classification. -/
structure SBlock where
  text : String
  left : Int
  top : Int
  column : Nat
  slot : Nat
deriving DecidableEq

/-- Forget the slot, keeping the fields the source's blocks carry. -/
def SBlock.toC (b : SBlock) : CBlock :=
  { text := b.text, left := b.left, top := b.top, column := b.column }

/-- Attach the spec's slot to a column-classified block. -/
def attachSlot (minY height : Int) (b : CBlock) : SBlock :=
  { text := b.text, left := b.left, top := b.top, column := b.column,
    slot := spec_slot minY height (slotsPerColumn b.column) b.top }

/-- Spec section 4.3 within-group order: `(top ascending, left ascending)`. -/
def topLeftLe (a b : SBlock) : Prop :=
  a.top < b.top ∨ (a.top = b.top ∧ a.left ≤ b.left)

instance : DecidableRel topLeftLe := fun a b => by unfold topLeftLe; infer_instance

instance : IsTotal SBlock topLeftLe := by
  constructor
  intro a b
  unfold topLeftLe
  rcases lt_trichotomy a.top b.top with h | h | h
  · exact Or.inl (Or.inl h)
  · rcases le_total a.left b.left with h' | h'
    · exact Or.inl (Or.inr ⟨h, h'⟩)
    · exact Or.inr (Or.inr ⟨h.symm, h'⟩)
  · exact Or.inr (Or.inl h)

instance : IsTrans SBlock topLeftLe := by
  constructor
  intro a b c hab hbc
  unfold topLeftLe at *
  rcases hab with h1 | ⟨h1, h1'⟩ <;> rcases hbc with h2 | ⟨h2, h2'⟩
  · exact Or.inl (lt_trans h1 h2)
  · exact Or.inl (h2 ▸ h1)
  · exact Or.inl (h1 ▸ h2)
  · exact Or.inr ⟨h1.trans h2, h1'.trans h2'⟩

/-- Spec section 4.3 group order: `(column ascending, slot ascending)`. -/
def keyLe (p q : Nat × Nat) : Prop :=
  p.1 < q.1 ∨ (p.1 = q.1 ∧ p.2 ≤ q.2)

instance : DecidableRel keyLe := fun a b => by unfold keyLe; infer_instance

instance : IsTotal (Nat × Nat) keyLe := by
  constructor
  intro a b
  unfold keyLe
  rcases lt_trichotomy a.1 b.1 with h | h | h
  · exact Or.inl (Or.inl h)
  · rcases le_total a.2 b.2 with h' | h'
    · exact Or.inl (Or.inr ⟨h, h'⟩)
    · exact Or.inr (Or.inr ⟨h.symm, h'⟩)
  · exact Or.inr (Or.inl h)

instance : IsTrans (Nat × Nat) keyLe := by
  constructor
  intro a b c hab hbc
  unfold keyLe at *
  rcases hab with h1 | ⟨h1, h1'⟩ <;> rcases hbc with h2 | ⟨h2, h2'⟩
  · exact Or.inl (lt_trans h1 h2)
  · exact Or.inl (h2 ▸ h1)
  · exact Or.inl (h1 ▸ h2)
  · exact Or.inr ⟨h1.trans h2, h1'.trans h2'⟩

instance : IsAntisymm (Nat × Nat) keyLe := by
  constructor
  intro a b hab hba
  unfold keyLe at *
  rcases hab with h1 | ⟨h1, h1'⟩ <;> rcases hba with h2 | ⟨h2, h2'⟩
  · exact absurd h2 (lt_asymm h1)
  · exact absurd h1 (h2 ▸ lt_irrefl a.1)
  · exact absurd h2 (h1 ▸ lt_irrefl a.1)
  · exact Prod.ext h1 (le_antisymm h1' h2')

/-- The `(column, slot)` key of a classified block. -/
def SBlock.key (b : SBlock) : Nat × Nat := (b.column, b.slot)

/-- Spec section 4.3: the members of one `(column, slot)` group, in
`(top ascending, left ascending)` order. -/
def spec_group (sbs : List SBlock) (k : Nat × Nat) : List SBlock :=
  List.insertionSort topLeftLe (sbs.filter fun b => b.key = k)

/-- Spec section 4.3: the non-empty group keys in
`(column ascending, slot ascending)` order. -/
def spec_keys (sbs : List SBlock) : List (Nat × Nat) :=
  List.insertionSort keyLe (sbs.map SBlock.key).dedup

/-- Spec section 4.3: join each group's fragments with a line separator,
then join the group texts with a line separator. -/
def spec_assemble (sbs : List SBlock) : String :=
  String.intercalate "\n"
    ((spec_keys sbs).map fun k =>
      String.intercalate "\n" ((spec_group sbs k).map SBlock.text))

/-- Spec section 3: the bottom edge of an annotation's bounding box. -/
def spec_bottom (a : Annotation) : Option Int :=
  (a.vertices.map Vertex.y).max?

/-- Spec section 3: the right edge of an annotation's bounding box. -/
def spec_right (a : Annotation) : Option Int :=
  (a.vertices.map Vertex.x).max?

/-- The observable text the spec prescribes for the gap-clustering path:
the source's blocks, boundaries and column assignment, then the spec's
slot assignment (section 4.2) and reading-order assembly (section 4.3),
with the grid extent of section 3. -/
def spec_slot_pipeline_text (anns : List Annotation) : Option String := do
  let blocks ← extractBlocks (anns.drop 1)
  let bottoms ← (anns.drop 1).mapM spec_bottom
  match columnBoundariesOf blocks, (blocks.map Block.top).min?, bottoms.max? with
  | [b0, b1, b2], some minY, some maxY =>
      some (spec_assemble ((classify b0 b1 b2 blocks).map (attachSlot minY (maxY - minY))))
  | _, _, _ => none

/-- Spec section 4.2 strategy 2: `xPercent = (left - minX) / width`
(0 when the width is zero), `column = floor(xPercent * columnCount) + 1`
clamped to `[1, columnCount]`. -/
def spec_percentage_column (minX width : Int) (columnCount : Nat) (x : Int) : Nat :=
  let xPercent : ℚ := if width = 0 then 0 else ((x - minX : Int) : ℚ) / (width : ℚ)
  min (max (Int.toNat ⌊xPercent * (columnCount : ℚ)⌋ + 1) 1) columnCount

/-- The observable text of the spec's percentage-grid strategy over a
given block list and grid extent: percentage columns, spec slots, spec
assembly. -/
def spec_percentage_text (minX width minY height : Int) (blocks : List Block) : String :=
  spec_assemble
    ((blocks.map fun b =>
        ({ text := b.text, left := b.left, top := b.top,
           column := spec_percentage_column minX width 4 b.left } : CBlock)).map
      (attachSlot minY height))

/-- The concrete two-gap input used for claim C5. -/
def c5In : List Annotation :=
  [⟨"full", [⟨0, 0⟩]⟩, ⟨"A", [⟨0, 50⟩]⟩, ⟨"B", [⟨2, 10⟩]⟩, ⟨"C", [⟨100, 0⟩]⟩]

/-- The blocks the source extracts from `c5In`. -/
def c5Blocks : List Block := (extractBlocks (c5In.drop 1)).getD []

/-- The same three blocks as plain literals (centers not relevant to
either computation compared in claim C5). -/
def c5Lit : List Block :=
  [⟨"A", 0, 50, 0, 0⟩, ⟨"B", 2, 10, 0, 0⟩, ⟨"C", 100, 0, 0, 0⟩]

/-- The concrete gap-path input used for claim C4: two column-1 blocks
share `top = 0` with lefts out of input order. -/
def c4In : List Annotation :=
  [⟨"full", [⟨0, 0⟩]⟩, ⟨"B", [⟨5, 0⟩]⟩, ⟨"A", [⟨0, 0⟩]⟩,
   ⟨"c2", [⟨100, 0⟩]⟩, ⟨"c3", [⟨200, 0⟩]⟩, ⟨"c4", [⟨300, 0⟩]⟩]

/-- The column-classified blocks the source computes on `c4In`. -/
def c4L : List CBlock :=
  classify 5 100 200 ((extractBlocks (c4In.drop 1)).getD [])

/-- The four-column input (distinct tops) used for the claim C6 witness,
and a reordering of it. -/
def c6InA : List Annotation :=
  [⟨"full", [⟨0, 0⟩]⟩, ⟨"X", [⟨0, 0⟩]⟩, ⟨"Y", [⟨1, 5⟩]⟩,
   ⟨"c2", [⟨100, 10⟩]⟩, ⟨"c3", [⟨200, 15⟩]⟩, ⟨"c4", [⟨300, 20⟩]⟩]

/-- The list `c6InA` with the two column-1 annotations swapped. -/
def c6InB : List Annotation :=
  [⟨"full", [⟨0, 0⟩]⟩, ⟨"Y", [⟨1, 5⟩]⟩, ⟨"X", [⟨0, 0⟩]⟩,
   ⟨"c2", [⟨100, 10⟩]⟩, ⟨"c3", [⟨200, 15⟩]⟩, ⟨"c4", [⟨300, 20⟩]⟩]

/-- The blocks the source extracts from `c6InA`. -/
def c6Bl : List Block := (extractBlocks (c6InA.drop 1)).getD []

/-- The four-column input with a `(column, top)` tie used for the claim
C6 counterexample, and a reordering of it. -/
def c6TieA : List Annotation :=
  [⟨"full", [⟨0, 0⟩]⟩, ⟨"X", [⟨0, 0⟩]⟩, ⟨"Y", [⟨1, 0⟩]⟩,
   ⟨"c2", [⟨100, 0⟩]⟩, ⟨"c3", [⟨200, 0⟩]⟩, ⟨"c4", [⟨300, 0⟩]⟩]

/-- The list `c6TieA` with the two tied column-1 annotations swapped. -/
def c6TieB : List Annotation :=
  [⟨"full", [⟨0, 0⟩]⟩, ⟨"Y", [⟨1, 0⟩]⟩, ⟨"X", [⟨0, 0⟩]⟩,
   ⟨"c2", [⟨100, 0⟩]⟩, ⟨"c3", [⟨200, 0⟩]⟩, ⟨"c4", [⟨300, 0⟩]⟩]

/-- The source's `(column, top)` key order read through spec blocks. -/
def colTopLeS (a b : SBlock) : Prop :=
  a.column < b.column ∨ (a.column = b.column ∧ a.top ≤ b.top)

instance : DecidableRel colTopLeS := fun a b => by unfold colTopLeS; infer_instance

instance : IsTotal SBlock colTopLeS := by
  constructor
  intro a b
  unfold colTopLeS
  rcases lt_trichotomy a.column b.column with h | h | h
  · exact Or.inl (Or.inl h)
  · rcases le_total a.top b.top with h' | h'
    · exact Or.inl (Or.inr ⟨h, h'⟩)
    · exact Or.inr (Or.inr ⟨h.symm, h'⟩)
  · exact Or.inr (Or.inl h)

instance : IsTrans SBlock colTopLeS := by
  constructor
  intro a b c hab hbc
  unfold colTopLeS at *
  rcases hab with h1 | ⟨h1, h1'⟩ <;> rcases hbc with h2 | ⟨h2, h2'⟩
  · exact Or.inl (lt_trans h1 h2)
  · exact Or.inl (h2 ▸ h1)
  · exact Or.inl (h1 ▸ h2)
  · exact Or.inr ⟨h1.trans h2, h1'.trans h2'⟩

/-- The slot is 0 whenever the grid height is zero (the guard case). -/
theorem spec_slot_height_zero (minY : Int) (n : Nat) (top : Int) :
    spec_slot minY 0 n top = 0 := by
  unfold spec_slot
  simp

/-- The slot is 0 whenever the column has a single slot (`n = 1`). -/
theorem spec_slot_one (minY height top : Int) :
    spec_slot minY height 1 top = 0 := by
  unfold spec_slot
  simp

/-- A block at the top of the grid (`top = minY`) gets slot 0. -/
theorem spec_slot_minY (minY height : Int) (n : Nat) :
    spec_slot minY height n minY = 0 := by
  unfold spec_slot
  by_cases h : height = 0 <;> simp [h]

/-!
General helper lemmas.
-/

/-- The extraction loop fails as soon as one annotation fails. -/
theorem extractBlocks_eq_none_of_mem :
    ∀ {l : List Annotation} {a : Annotation}, a ∈ l → extractBlock a = none →
      extractBlocks l = none := by
  intro l
  induction l with
  | nil => intro a ha _; cases ha
  | cons x xs ih =>
    intro a ha hf
    rcases List.mem_cons.mp ha with rfl | hmem
    · simp [extractBlocks, hf]
    · cases hfx : extractBlock x with
      | none => simp [extractBlocks, hfx]
      | some b => simp [extractBlocks, hfx, ih hmem hf]

/-- Two sorted permutations of each other are equal, needing antisymmetry
only on the elements actually present. -/
theorem eq_of_perm_of_sorted_on {α : Type} {r : α → α → Prop} :
    ∀ {l₁ l₂ : List α}, List.Perm l₁ l₂ → l₁.Sorted r → l₂.Sorted r →
      (∀ a ∈ l₁, ∀ b ∈ l₁, r a b → r b a → a = b) → l₁ = l₂ := by
  intro l₁
  induction l₁ with
  | nil =>
    intro l₂ hp _ _ _
    exact (hp.symm.eq_nil).symm
  | cons a t ih =>
    intro l₂ hp hs₁ hs₂ hanti
    cases l₂ with
    | nil => exact absurd hp.symm (by simp)
    | cons b t₂ =>
      have hab : a = b := by
        have hmem_a : a ∈ b :: t₂ := hp.subset (List.mem_cons_self a t)
        have hmem_b : b ∈ a :: t := hp.symm.subset (List.mem_cons_self b t₂)
        rcases List.mem_cons.mp hmem_b with h | hbt
        · exact h.symm
        rcases List.mem_cons.mp hmem_a with h | hat₂
        · exact h
        have rab : r a b := List.rel_of_sorted_cons hs₁ b hbt
        have rba : r b a := List.rel_of_sorted_cons hs₂ a hat₂
        exact hanti a (List.mem_cons_self a t) b (List.mem_cons.mpr (Or.inr hbt)) rab rba
      subst hab
      have ht : t = t₂ := by
        refine ih hp.cons_inv hs₁.of_cons hs₂.of_cons ?_
        intro x hx y hy
        exact hanti x (List.mem_cons.mpr (Or.inr hx)) y (List.mem_cons.mpr (Or.inr hy))
      rw [ht]

/-- The extraction loop maps permutations of successful inputs to
permutations of the outputs. -/
theorem extractBlocks_perm_some :
    ∀ {l₁ l₂ : List Annotation}, List.Perm l₁ l₂ → ∀ {b₁ : List Block},
      extractBlocks l₁ = some b₁ →
      ∃ b₂, extractBlocks l₂ = some b₂ ∧ List.Perm b₁ b₂ := by
  intro l₁ l₂ hp
  induction hp with
  | nil => exact fun h => ⟨_, h, List.Perm.refl _⟩
  | cons x hp ih =>
    rename_i tl1 tl2
    intro b₁ h
    rw [extractBlocks] at h
    cases hfx : extractBlock x with
    | none => rw [hfx] at h; simp at h
    | some y =>
      rw [hfx] at h
      cases hm : extractBlocks tl1 with
      | none => rw [hm] at h; simp at h
      | some t₁ =>
        rw [hm] at h
        simp at h
        obtain ⟨t₂, ht₂, hpt⟩ := ih hm
        refine ⟨y :: t₂, ?_, by rw [← h]; exact hpt.cons y⟩
        rw [extractBlocks, hfx, ht₂]
  | swap x y l =>
    intro b₁ h
    rw [extractBlocks] at h
    cases hfy : extractBlock y with
    | none => rw [hfy] at h; simp at h
    | some vy =>
      rw [hfy] at h
      rw [extractBlocks] at h
      cases hfx : extractBlock x with
      | none => rw [hfx] at h; simp at h
      | some vx =>
        rw [hfx] at h
        cases hm : extractBlocks l with
        | none => rw [hm] at h; simp at h
        | some t =>
          rw [hm] at h
          simp at h
          refine ⟨vx :: vy :: t, ?_, ?_⟩
          · rw [extractBlocks, hfx, extractBlocks, hfy, hm]
          · rw [← h]; exact List.Perm.swap vx vy t
  | trans h1 h2 ih1 ih2 =>
    intro b₁ h
    obtain ⟨b₂, hb₂, hp₂⟩ := ih1 h
    obtain ⟨b₃, hb₃, hp₃⟩ := ih2 hb₂
    exact ⟨b₃, hb₃, hp₂.trans hp₃⟩

/-- The if/elif chain equals the first-boundary characterization. -/
theorem assignColumn_eq_spec (b0 b1 b2 x : Int) :
    assignColumn b0 b1 b2 x = spec_column [b0, b1, b2] x := by
  unfold assignColumn spec_column
  by_cases h0 : x ≤ b0 <;> by_cases h1 : x ≤ b1 <;> by_cases h2 : x ≤ b2 <;>
    simp [List.findIdx_cons, h0, h1, h2]

/-- The if/elif chain only produces columns 1 to 4. -/
theorem assignColumn_bounds (b0 b1 b2 x : Int) :
    1 ≤ assignColumn b0 b1 b2 x ∧ assignColumn b0 b1 b2 x ≤ 4 := by
  unfold assignColumn
  by_cases h0 : x ≤ b0 <;> by_cases h1 : x ≤ b1 <;> by_cases h2 : x ≤ b2 <;>
    simp [h0, h1, h2]

/-!
Claim theorems.
-/

/-- Claim C2: for every retained block, the assigned column is the index
of the first boundary whose value the block's left X-coordinate is
at-or-before, and the last column (4) if the left X exceeds every
boundary; consequently `1 ≤ column ≤ 4`. -/
theorem C2_column_is_first_boundary (b0 b1 b2 : Int) (blocks : List Block) :
    ∀ cb ∈ classify b0 b1 b2 blocks,
      cb.column = spec_column [b0, b1, b2] cb.left ∧ 1 ≤ cb.column ∧ cb.column ≤ 4 := by
  intro cb hcb
  obtain ⟨b, _, rfl⟩ := List.mem_map.mp hcb
  exact ⟨assignColumn_eq_spec b0 b1 b2 b.left,
         (assignColumn_bounds b0 b1 b2 b.left).1,
         (assignColumn_bounds b0 b1 b2 b.left).2⟩

/-- Claim C2 witness: the theorem applied at a concrete classified block. -/
theorem C2_column_is_first_boundary_witness :
    (⟨"a", 150, 0, 2⟩ : CBlock) ∈ classify 100 200 300 [⟨"a", 150, 0, 0, 0⟩] ∧
      ((⟨"a", 150, 0, 2⟩ : CBlock).column =
          spec_column [100, 200, 300] (⟨"a", 150, 0, 2⟩ : CBlock).left ∧
        1 ≤ (⟨"a", 150, 0, 2⟩ : CBlock).column ∧ (⟨"a", 150, 0, 2⟩ : CBlock).column ≤ 4) :=
  ⟨by decide, C2_column_is_first_boundary 100 200 300 [⟨"a", 150, 0, 0, 0⟩]
    ⟨"a", 150, 0, 2⟩ (by decide)⟩

/-- Claim C7 (amended): an input with at most the discarded full-text
record yields an empty text and an *empty* diagnostics dict (no
`totalBlocks` key, no warnings), without raising. -/
theorem C7_empty_input (anns : List Annotation) (h : anns.length ≤ 1) :
    sort_pedigree_blocks_by_columns anns = some { text := "", debug := {} } := by
  unfold sort_pedigree_blocks_by_columns
  rw [if_pos h]

/-- Claim C7 witness: the empty annotation list. -/
theorem C7_empty_input_witness :
    ([] : List Annotation).length ≤ 1 ∧
      sort_pedigree_blocks_by_columns [] = some { text := "", debug := {} } :=
  ⟨by decide, C7_empty_input [] (by decide)⟩

/-- Claim C7 counterexample: on the empty input the debug dict carries no
`totalBlocks` key at all, so it does not report `totalBlocks = 0` as the
claim states (the text is still empty and no error is raised). -/
theorem C7_counterexample :
    (sort_pedigree_blocks_by_columns []).map (fun r => r.debug.totalBlocks) = some none ∧
      (sort_pedigree_blocks_by_columns []).map (fun r => r.debug.totalBlocks) ≠
        some (some 0) ∧
      (sort_pedigree_blocks_by_columns []).map SortResult.text = some "" ∧
      (sort_pedigree_blocks_by_columns []).map (fun r => r.debug.warning) = some none := by
  refine ⟨rfl, by decide, rfl, rfl⟩

/-- Claim C8 (amended): an annotation with an empty bounding polygon
makes block extraction raise (`min([])` is a `ValueError`), aborting the
whole pipeline; it is not skipped and no warning is recorded. -/
theorem C8_zero_vertices_abort (anns : List Annotation) (a : Annotation)
    (hlen : 2 ≤ anns.length) (hmem : a ∈ anns.drop 1) (hv : a.vertices = []) :
    sort_pedigree_blocks_by_columns anns = none := by
  have hex : extractBlock a = none := by
    unfold extractBlock
    rw [hv]
    rfl
  have hnone : extractBlocks (anns.drop 1) = none :=
    extractBlocks_eq_none_of_mem hmem hex
  rw [List.drop_one] at hnone
  unfold sort_pedigree_blocks_by_columns
  rw [if_neg (by omega)]
  simp [hnone]

/-- Claim C8 witness: a concrete input with one zero-vertex annotation. -/
theorem C8_zero_vertices_abort_witness :
    2 ≤ ([⟨"full", [⟨0, 0⟩]⟩, ⟨"z", []⟩, ⟨"g", [⟨5, 5⟩]⟩] : List Annotation).length ∧
      (⟨"z", []⟩ : Annotation) ∈
        ([⟨"full", [⟨0, 0⟩]⟩, ⟨"z", []⟩, ⟨"g", [⟨5, 5⟩]⟩] : List Annotation).drop 1 ∧
      (⟨"z", []⟩ : Annotation).vertices = [] ∧
      sort_pedigree_blocks_by_columns
          [⟨"full", [⟨0, 0⟩]⟩, ⟨"z", []⟩, ⟨"g", [⟨5, 5⟩]⟩] = none :=
  ⟨by decide, by decide, rfl,
    C8_zero_vertices_abort _ ⟨"z", []⟩ (by decide) (by decide) rfl⟩

/-- Claim C8 counterexample: with a zero-vertex annotation present the
pipeline returns an error (`none`) instead of skipping it with a warning
and continuing with the remaining annotation. -/
theorem C8_counterexample :
    sort_pedigree_blocks_by_columns
        [⟨"full", [⟨0, 0⟩]⟩, ⟨"bad", []⟩, ⟨"good", [⟨5, 5⟩]⟩] = none := rfl

/-!
Gap machinery lemmas for the boundary claims.
-/

/-- The distinct X positions are strictly increasing. -/
theorem xPositions_sorted_lt (blocks : List Block) :
    (xPositions blocks).Sorted (· < ·) := by
  have h1 : (xPositions blocks).Sorted (· ≤ ·) := List.sorted_insertionSort _ _
  have h2 : (xPositions blocks).Nodup :=
    (List.perm_insertionSort (· ≤ ·) (blocks.map Block.left).dedup).symm.nodup
      (List.nodup_dedup _)
  exact h1.lt_of_le h2

/-- Values of a strictly sorted list at increasing indices increase. -/
theorem getD_strictMono_of_sorted_lt {xp : List Int} (hs : xp.Sorted (· < ·))
    {i j : Nat} (hij : i < j) (hj : j < xp.length) :
    xp.getD i 0 < xp.getD j 0 := by
  have hi : i < xp.length := lt_trans hij hj
  rw [List.getD_eq_getElem xp 0 hi, List.getD_eq_getElem xp 0 hj]
  exact List.pairwise_iff_get.mp hs ⟨i, hi⟩ ⟨j, hj⟩ hij

/-- Every gap record points at a consecutive pair of distinct X values;
its `after_x` is the value immediately before the gap. -/
theorem mem_mkGaps {xp : List Int} {g : Gap} (hg : g ∈ mkGaps xp) :
    g.index + 1 < xp.length ∧ g.after_x = xp.getD g.index 0 ∧
      g.after_x + g.gap_size = xp.getD (g.index + 1) 0 := by
  unfold mkGaps at hg
  obtain ⟨i, hi, rfl⟩ := List.mem_map.mp hg
  have hi' := List.mem_range.mp hi
  refine ⟨?_, rfl, ?_⟩
  · show i + 1 < xp.length
    omega
  · show xp.getD i 0 + (xp.getD (i + 1) 0 - xp.getD i 0) = xp.getD (i + 1) 0
    ring

/-- Gap records have pairwise distinct indices, hence no duplicates. -/
theorem mkGaps_nodup (xp : List Int) : (mkGaps xp).Nodup := by
  unfold mkGaps
  refine List.Nodup.map_on ?_ (List.nodup_range _)
  intro i _ j _ h
  exact congrArg Gap.index h

/-- On a strictly sorted position list, `after_x` determines the gap. -/
theorem mkGaps_after_x_inj {xp : List Int} (hs : xp.Sorted (· < ·)) {g g' : Gap}
    (hg : g ∈ mkGaps xp) (hg' : g' ∈ mkGaps xp) (he : g.after_x = g'.after_x) :
    g = g' := by
  unfold mkGaps at hg hg'
  obtain ⟨i, hi, rfl⟩ := List.mem_map.mp hg
  obtain ⟨j, hj, rfl⟩ := List.mem_map.mp hg'
  have hi' := List.mem_range.mp hi
  have hj' := List.mem_range.mp hj
  simp only at he
  have hij : i = j := by
    by_contra hne
    rcases Nat.lt_or_ge i j with h | h
    · exact absurd he (ne_of_lt (getD_strictMono_of_sorted_lt hs h (by omega)))
    · have h' : j < i := by omega
      exact absurd he.symm (ne_of_lt (getD_strictMono_of_sorted_lt hs h' (by omega)))
  rw [hij]

/-- Claim C1: with at least 3 gaps between distinct left X-values, the
boundaries are obtained by taking the distinct left X-values in
ascending order, computing consecutive gaps, choosing 3 gaps that are
largest among all gaps, placing each boundary at the X-value immediately
before its gap, and sorting the three boundaries ascending. -/
theorem C1_gap_clustering_boundaries (blocks : List Block)
    (hg : 3 ≤ (mkGaps (xPositions blocks)).length) :
    ∃ chosen discarded : List Gap,
      chosen.length = 3 ∧
      List.Perm (chosen ++ discarded) (mkGaps (xPositions blocks)) ∧
      (∀ g ∈ chosen, ∀ g' ∈ discarded, g'.gap_size ≤ g.gap_size) ∧
      (∀ g ∈ chosen, g.index + 1 < (xPositions blocks).length ∧
        g.after_x = (xPositions blocks).getD g.index 0 ∧
        g.after_x + g.gap_size = (xPositions blocks).getD (g.index + 1) 0) ∧
      List.Perm (columnBoundariesOf blocks) (chosen.map Gap.after_x) ∧
      (columnBoundariesOf blocks).Sorted (· ≤ ·) := by
  classical
  set gaps := mkGaps (xPositions blocks) with hgaps
  set sortedGaps := List.insertionSort gapGe gaps with hsg
  refine ⟨sortedGaps.take 3, sortedGaps.drop 3, ?_, ?_, ?_, ?_, ?_, ?_⟩
  · rw [List.length_take, List.length_insertionSort]
    omega
  · rw [List.take_append_drop]
    exact List.perm_insertionSort gapGe gaps
  · intro g hgm g' hg'm
    exact (List.sorted_insertionSort gapGe gaps).rel_of_mem_take_of_mem_drop hgm hg'm
  · intro g hgm
    have : g ∈ sortedGaps := List.mem_of_mem_take hgm
    have : g ∈ gaps := (List.perm_insertionSort gapGe gaps).mem_iff.mp this
    exact mem_mkGaps this
  · exact List.perm_insertionSort (· ≤ ·) _
  · exact List.sorted_insertionSort (· ≤ ·) _

/-- Claim C1 witness: four separated left X-values provide three gaps. -/
theorem C1_gap_clustering_boundaries_witness :
    3 ≤ (mkGaps (xPositions
        [⟨"a", 0, 0, 0, 0⟩, ⟨"b", 100, 0, 0, 0⟩,
         ⟨"c", 200, 0, 0, 0⟩, ⟨"d", 300, 0, 0, 0⟩])).length ∧
      ∃ chosen discarded : List Gap,
        chosen.length = 3 ∧
        List.Perm (chosen ++ discarded)
          (mkGaps (xPositions
            [⟨"a", 0, 0, 0, 0⟩, ⟨"b", 100, 0, 0, 0⟩,
             ⟨"c", 200, 0, 0, 0⟩, ⟨"d", 300, 0, 0, 0⟩])) ∧
        (∀ g ∈ chosen, ∀ g' ∈ discarded, g'.gap_size ≤ g.gap_size) ∧
        (∀ g ∈ chosen,
          g.index + 1 < (xPositions
            [⟨"a", 0, 0, 0, 0⟩, ⟨"b", 100, 0, 0, 0⟩,
             ⟨"c", 200, 0, 0, 0⟩, ⟨"d", 300, 0, 0, 0⟩]).length ∧
          g.after_x = (xPositions
            [⟨"a", 0, 0, 0, 0⟩, ⟨"b", 100, 0, 0, 0⟩,
             ⟨"c", 200, 0, 0, 0⟩, ⟨"d", 300, 0, 0, 0⟩]).getD g.index 0 ∧
          g.after_x + g.gap_size = (xPositions
            [⟨"a", 0, 0, 0, 0⟩, ⟨"b", 100, 0, 0, 0⟩,
             ⟨"c", 200, 0, 0, 0⟩, ⟨"d", 300, 0, 0, 0⟩]).getD (g.index + 1) 0) ∧
        List.Perm (columnBoundariesOf
            [⟨"a", 0, 0, 0, 0⟩, ⟨"b", 100, 0, 0, 0⟩,
             ⟨"c", 200, 0, 0, 0⟩, ⟨"d", 300, 0, 0, 0⟩])
          (chosen.map Gap.after_x) ∧
        (columnBoundariesOf
            [⟨"a", 0, 0, 0, 0⟩, ⟨"b", 100, 0, 0, 0⟩,
             ⟨"c", 200, 0, 0, 0⟩, ⟨"d", 300, 0, 0, 0⟩]).Sorted (· ≤ ·) :=
  ⟨by decide, C1_gap_clustering_boundaries _ (by decide)⟩

/-- Claim C10: on the gap-clustering path the three selected boundaries
are pairwise distinct and strictly increasing, so the duplicate-boundary
degenerate case cannot occur there. -/
theorem C10_boundaries_strict (blocks : List Block)
    (hg : 3 ≤ (mkGaps (xPositions blocks)).length) :
    (columnBoundariesOf blocks).Sorted (· < ·) ∧
      (columnBoundariesOf blocks).Nodup ∧
      (columnBoundariesOf blocks).length = 3 := by
  classical
  have hxs := xPositions_sorted_lt blocks
  set gaps := mkGaps (xPositions blocks) with hgaps
  set sortedGaps := List.insertionSort gapGe gaps with hsg
  have hchsub : ∀ g ∈ sortedGaps.take 3, g ∈ gaps := fun g hgm =>
    (List.perm_insertionSort gapGe gaps).mem_iff.mp (List.mem_of_mem_take hgm)
  have hchnd : (sortedGaps.take 3).Nodup :=
    ((List.perm_insertionSort gapGe gaps).symm.nodup (mkGaps_nodup _)).sublist
      (List.take_sublist 3 sortedGaps)
  have hmapnd : ((sortedGaps.take 3).map Gap.after_x).Nodup := by
    refine List.Nodup.map_on ?_ hchnd
    intro g hgm g' hg'm he
    exact mkGaps_after_x_inj hxs (hchsub g hgm) (hchsub g' hg'm) he
  have hbnd : (columnBoundariesOf blocks).Nodup :=
    (List.perm_insertionSort (· ≤ ·) _).symm.nodup hmapnd
  have hble : (columnBoundariesOf blocks).Sorted (· ≤ ·) :=
    List.sorted_insertionSort (· ≤ ·) _
  refine ⟨hble.lt_of_le hbnd, hbnd, ?_⟩
  unfold columnBoundariesOf top3GapsOf
  rw [List.length_insertionSort, List.length_map, List.length_take,
    List.length_insertionSort]
  exact min_eq_left hg

/-- Claim C10 witness: four separated left X-values. -/
theorem C10_boundaries_strict_witness :
    3 ≤ (mkGaps (xPositions
        [⟨"a", 0, 5, 0, 0⟩, ⟨"b", 100, 5, 0, 0⟩,
         ⟨"c", 200, 5, 0, 0⟩, ⟨"d", 300, 5, 0, 0⟩])).length ∧
      ((columnBoundariesOf
          [⟨"a", 0, 5, 0, 0⟩, ⟨"b", 100, 5, 0, 0⟩,
           ⟨"c", 200, 5, 0, 0⟩, ⟨"d", 300, 5, 0, 0⟩]).Sorted (· < ·) ∧
        (columnBoundariesOf
          [⟨"a", 0, 5, 0, 0⟩, ⟨"b", 100, 5, 0, 0⟩,
           ⟨"c", 200, 5, 0, 0⟩, ⟨"d", 300, 5, 0, 0⟩]).Nodup ∧
        (columnBoundariesOf
          [⟨"a", 0, 5, 0, 0⟩, ⟨"b", 100, 5, 0, 0⟩,
           ⟨"c", 200, 5, 0, 0⟩, ⟨"d", 300, 5, 0, 0⟩]).length = 3) :=
  ⟨by decide, C10_boundaries_strict _ (by decide)⟩

/-- The four per-column counts of the histogram add up to the number of
classified blocks, provided every column lies in 1..4. -/
theorem colCounts_sum (cbs : List CBlock)
    (hb : ∀ cb ∈ cbs, 1 ≤ cb.column ∧ cb.column ≤ 4) :
    colCounts cbs 1 + colCounts cbs 2 + colCounts cbs 3 + colCounts cbs 4 =
      cbs.length := by
  induction cbs with
  | nil => simp [colCounts]
  | cons c t ih =>
    have hc := hb c (List.mem_cons_self c t)
    have ht : ∀ cb ∈ t, 1 ≤ cb.column ∧ cb.column ≤ 4 :=
      fun cb h => hb cb (List.mem_cons.mpr (Or.inr h))
    have iht := ih ht
    have h14 : c.column = 1 ∨ c.column = 2 ∨ c.column = 3 ∨ c.column = 4 := by omega
    rcases h14 with h | h | h | h <;>
      simp [colCounts, List.countP_cons, h] at iht ⊢ <;> omega

/-- Claim C9: on the gap-clustering path every retained block is
classified, matching exactly one of the four columns; the classified
list is exactly as long as the retained block list; the stable
`(column, top)` sort that produces the output is a permutation of the
classified blocks (no block is dropped); and the `blocksPerColumn`
histogram values add up to the number of retained blocks. -/
theorem C9_partition_totality (blocks : List Block) (b0 b1 b2 : Int)
    (hb : columnBoundariesOf blocks = [b0, b1, b2]) :
    List.Perm (sortBlocksColTop (classify b0 b1 b2 blocks))
        (classify b0 b1 b2 blocks) ∧
      (classify b0 b1 b2 blocks).length = blocks.length ∧
      (∀ cb ∈ classify b0 b1 b2 blocks,
        ([1, 2, 3, 4].filter fun c => cb.column == c).length = 1) ∧
      colCounts (classify b0 b1 b2 blocks) 1 + colCounts (classify b0 b1 b2 blocks) 2 +
          colCounts (classify b0 b1 b2 blocks) 3 + colCounts (classify b0 b1 b2 blocks) 4 =
        blocks.length := by
  have hbounds : ∀ cb ∈ classify b0 b1 b2 blocks, 1 ≤ cb.column ∧ cb.column ≤ 4 := by
    intro cb hcb
    obtain ⟨b, _, rfl⟩ := List.mem_map.mp hcb
    exact assignColumn_bounds b0 b1 b2 b.left
  refine ⟨List.perm_insertionSort colTopLe _, by simp [classify], ?_, ?_⟩
  · intro cb hcb
    have h := hbounds cb hcb
    have h14 : cb.column = 1 ∨ cb.column = 2 ∨ cb.column = 3 ∨ cb.column = 4 := by omega
    rcases h14 with h | h | h | h <;> simp [h]
  · rw [colCounts_sum _ hbounds]
    simp [classify]

/-- Claim C9 witness: a concrete four-column input. -/
theorem C9_partition_totality_witness :
    columnBoundariesOf
        [⟨"a", 0, 0, 0, 0⟩, ⟨"b", 100, 0, 0, 0⟩,
         ⟨"c", 200, 0, 0, 0⟩, ⟨"d", 300, 0, 0, 0⟩] = [0, 100, 200] ∧
      (List.Perm
          (sortBlocksColTop (classify 0 100 200
            [⟨"a", 0, 0, 0, 0⟩, ⟨"b", 100, 0, 0, 0⟩,
             ⟨"c", 200, 0, 0, 0⟩, ⟨"d", 300, 0, 0, 0⟩]))
          (classify 0 100 200
            [⟨"a", 0, 0, 0, 0⟩, ⟨"b", 100, 0, 0, 0⟩,
             ⟨"c", 200, 0, 0, 0⟩, ⟨"d", 300, 0, 0, 0⟩]) ∧
        (classify 0 100 200
            [⟨"a", 0, 0, 0, 0⟩, ⟨"b", 100, 0, 0, 0⟩,
             ⟨"c", 200, 0, 0, 0⟩, ⟨"d", 300, 0, 0, 0⟩]).length =
          ([⟨"a", 0, 0, 0, 0⟩, ⟨"b", 100, 0, 0, 0⟩,
            ⟨"c", 200, 0, 0, 0⟩, ⟨"d", 300, 0, 0, 0⟩] : List Block).length ∧
        (∀ cb ∈ classify 0 100 200
            [⟨"a", 0, 0, 0, 0⟩, ⟨"b", 100, 0, 0, 0⟩,
             ⟨"c", 200, 0, 0, 0⟩, ⟨"d", 300, 0, 0, 0⟩],
          ([1, 2, 3, 4].filter fun c => cb.column == c).length = 1) ∧
        colCounts (classify 0 100 200
              [⟨"a", 0, 0, 0, 0⟩, ⟨"b", 100, 0, 0, 0⟩,
               ⟨"c", 200, 0, 0, 0⟩, ⟨"d", 300, 0, 0, 0⟩]) 1 +
            colCounts (classify 0 100 200
              [⟨"a", 0, 0, 0, 0⟩, ⟨"b", 100, 0, 0, 0⟩,
               ⟨"c", 200, 0, 0, 0⟩, ⟨"d", 300, 0, 0, 0⟩]) 2 +
            colCounts (classify 0 100 200
              [⟨"a", 0, 0, 0, 0⟩, ⟨"b", 100, 0, 0, 0⟩,
               ⟨"c", 200, 0, 0, 0⟩, ⟨"d", 300, 0, 0, 0⟩]) 3 +
            colCounts (classify 0 100 200
              [⟨"a", 0, 0, 0, 0⟩, ⟨"b", 100, 0, 0, 0⟩,
               ⟨"c", 200, 0, 0, 0⟩, ⟨"d", 300, 0, 0, 0⟩]) 4 =
          ([⟨"a", 0, 0, 0, 0⟩, ⟨"b", 100, 0, 0, 0⟩,
            ⟨"c", 200, 0, 0, 0⟩, ⟨"d", 300, 0, 0, 0⟩] : List Block).length) :=
  ⟨by decide, C9_partition_totality _ 0 100 200 (by decide)⟩

/-!
Claim C5: the fallback branch.
-/

/-- Claim C5 (amended): with fewer than 3 gaps the pipeline takes the
fallback branch: the output is the block texts in the simple
`(left, top)` order joined by newlines; the diagnostics carry the
`Not enough gaps detected` warning, the block count and the distinct-X
count; and no `strategyUsed` entry is reported. -/
theorem C5_fallback_is_simple_sort (anns : List Annotation) (blocks : List Block)
    (hlen : 2 ≤ anns.length)
    (hextract : extractBlocks (anns.drop 1) = some blocks)
    (hne : blocks ≠ [])
    (hgaps : (mkGaps (xPositions blocks)).length < 3) :
    sort_pedigree_blocks_by_columns anns =
        some { text := String.intercalate "\n" ((fallbackSort blocks).map Block.text),
               debug := { warning := some "Not enough gaps detected",
                          totalBlocks := some blocks.length,
                          uniqueXPositions := some (xPositions blocks).length } } ∧
      List.Perm (fallbackSort blocks) blocks ∧
      (fallbackSort blocks).Sorted leftTopLe ∧
      (sort_pedigree_blocks_by_columns anns).bind (fun r => r.debug.strategyUsed) =
        none := by
  have hextract' : extractBlocks anns.tail = some blocks := by
    rw [← List.drop_one]; exact hextract
  have hne' : blocks.isEmpty = false := by
    cases blocks with
    | nil => exact absurd rfl hne
    | cons b bs => rfl
  have hmain : sort_pedigree_blocks_by_columns anns =
      some { text := String.intercalate "\n" ((fallbackSort blocks).map Block.text),
             debug := { warning := some "Not enough gaps detected",
                        totalBlocks := some blocks.length,
                        uniqueXPositions := some (xPositions blocks).length } } := by
    unfold sort_pedigree_blocks_by_columns pipelineCore
    rw [if_neg (by omega)]
    simp [hextract', hne', hgaps, hne]
  refine ⟨hmain, List.perm_insertionSort leftTopLe blocks,
    List.sorted_insertionSort leftTopLe blocks, ?_⟩
  rw [hmain]
  rfl

/-- Claim C5 witness: three blocks with only two gaps. -/
theorem C5_fallback_is_simple_sort_witness :
    2 ≤ c5In.length ∧
      extractBlocks (c5In.drop 1) = some c5Blocks ∧
      c5Blocks ≠ [] ∧
      (mkGaps (xPositions c5Blocks)).length < 3 ∧
      (sort_pedigree_blocks_by_columns c5In).bind
        (fun r => r.debug.strategyUsed) = none :=
  ⟨by decide, rfl,
    fun h => absurd (congrArg List.length h) (by decide),
    by decide,
    (C5_fallback_is_simple_sort c5In c5Blocks (by decide) rfl
      (fun h => absurd (congrArg List.length h) (by decide)) (by decide)).2.2.2⟩

/-- The percentage column of the left grid edge is 1. -/
theorem spec_percentage_column_left_edge :
    spec_percentage_column 0 100 4 0 = 1 := by
  unfold spec_percentage_column; norm_num

/-- The percentage column of x = 2 in a width-100 grid is 1. -/
theorem spec_percentage_column_two :
    spec_percentage_column 0 100 4 2 = 1 := by
  unfold spec_percentage_column
  norm_num [Int.floor_eq_zero_iff, Set.mem_Ico]

/-- The percentage column of the right grid edge clamps to 4. -/
theorem spec_percentage_column_right_edge :
    spec_percentage_column 0 100 4 100 = 4 := by
  unfold spec_percentage_column
  norm_num
  decide

/-- Claim C5 counterexample: on a two-gap input the pipeline's output is
the `(left, top)`-sorted text, which differs from what the spec's
percentage-grid strategy produces on the same blocks (grid extent
`minX = 0`, `width = 100`, `minY = 0`, `height = 50`), and the
diagnostics carry no `strategyUsed` entry at all, in particular not
`percentage-grid`. -/
theorem C5_counterexample :
    (sort_pedigree_blocks_by_columns c5In).map SortResult.text = some "A\nB\nC" ∧
      spec_percentage_text 0 100 0 50 c5Lit = "B\nA\nC" ∧
      ("A\nB\nC" : String) ≠ "B\nA\nC" ∧
      c5Blocks.map (fun b => (b.text, b.left, b.top)) =
        [("A", 0, 50), ("B", 2, 10), ("C", 100, 0)] ∧
      c5Lit.map (fun b => (b.text, b.left, b.top)) =
        [("A", 0, 50), ("B", 2, 10), ("C", 100, 0)] ∧
      (sort_pedigree_blocks_by_columns c5In).bind
        (fun r => r.debug.strategyUsed) = none ∧
      (sort_pedigree_blocks_by_columns c5In).bind
        (fun r => r.debug.warning) = some "Not enough gaps detected" := by
  have hcols : (c5Lit.map fun b =>
        ({ text := b.text, left := b.left, top := b.top,
           column := spec_percentage_column 0 100 4 b.left } : CBlock)) =
      [⟨"A", 0, 50, 1⟩, ⟨"B", 2, 10, 1⟩, ⟨"C", 100, 0, 4⟩] := by
    simp [c5Lit, spec_percentage_column_left_edge, spec_percentage_column_two,
      spec_percentage_column_right_edge]
  have hslots : (([⟨"A", 0, 50, 1⟩, ⟨"B", 2, 10, 1⟩,
        ⟨"C", 100, 0, 4⟩] : List CBlock).map (attachSlot 0 50)) =
      [⟨"A", 0, 50, 1, 0⟩, ⟨"B", 2, 10, 1, 0⟩, ⟨"C", 100, 0, 4, 0⟩] := by
    have h1 : slotsPerColumn 1 = 1 := by norm_num [slotsPerColumn]
    simp [attachSlot, h1, spec_slot_one, spec_slot_minY]
  have hspec : spec_percentage_text 0 100 0 50 c5Lit = "B\nA\nC" := by
    unfold spec_percentage_text
    rw [hcols, hslots]
    decide
  exact ⟨by decide, hspec, by decide, by decide, by decide, by decide, by decide⟩

/-!
Stability of the stable sort with respect to a tie-class filter.
-/

/-- Inserting an element of a tie class puts it in front of the class. -/
theorem filter_orderedInsert_pos {α : Type} (r : α → α → Prop) [DecidableRel r]
    (p : α → Bool) (x : α) (hx : p x = true) :
    ∀ l : List α, (∀ y ∈ l, p y = true → r x y) →
      (List.orderedInsert r x l).filter p = x :: l.filter p := by
  intro l
  induction l with
  | nil => intro _; simp [hx]
  | cons b t ih =>
    intro hrel
    by_cases hrb : r x b
    · rw [List.orderedInsert_of_le r t hrb]
      simp [hx]
    · have hpb : p b = false := by
        cases hpb : p b with
        | true => exact absurd (hrel b (List.mem_cons_self b t) hpb) hrb
        | false => rfl
      simp only [List.orderedInsert, if_neg hrb, List.filter_cons, hpb]
      exact ih fun y hy hpy => hrel y (List.mem_cons.mpr (Or.inr hy)) hpy

/-- Inserting an element outside the class leaves the class unchanged. -/
theorem filter_orderedInsert_neg {α : Type} (r : α → α → Prop) [DecidableRel r]
    (p : α → Bool) (x : α) (hx : p x = false) :
    ∀ l : List α, (List.orderedInsert r x l).filter p = l.filter p := by
  intro l
  induction l with
  | nil => simp [hx]
  | cons b t ih =>
    by_cases hrb : r x b
    · rw [List.orderedInsert_of_le r t hrb]
      simp [hx]
    · simp only [List.orderedInsert, if_neg hrb, List.filter_cons]
      rw [ih]

/-- A stable sort keeps the input order inside each tie class. -/
theorem filter_insertionSort_ties {α : Type} (r : α → α → Prop) [DecidableRel r]
    (p : α → Bool) (hties : ∀ x y, p x = true → p y = true → r x y) :
    ∀ l : List α, (List.insertionSort r l).filter p = l.filter p := by
  intro l
  induction l with
  | nil => rfl
  | cons a t ih =>
    show (List.orderedInsert r a (List.insertionSort r t)).filter p = _
    cases hpa : p a with
    | true =>
      rw [filter_orderedInsert_pos r p a hpa _ (fun y _ hpy => hties a y hpa hpy), ih]
      simp [hpa]
    | false =>
      rw [filter_orderedInsert_neg r p a hpa, ih]
      simp [hpa]

/-- Claim C3 (amended): the assembler stable-sorts the classified blocks
by `(column ascending, top ascending)` -- ties keep input order -- and
joins all fragment texts with newlines; it uses no `(column, slot)`
grouping and does not order ties by `left`. -/
theorem C3_assembler_characterization (cbs : List CBlock) :
    List.Perm (sortBlocksColTop cbs) cbs ∧
      (sortBlocksColTop cbs).Sorted colTopLe ∧
      assembleBlocks cbs =
        String.intercalate "\n" ((sortBlocksColTop cbs).map CBlock.text) ∧
      ∀ c : Nat, ∀ t : Int,
        (sortBlocksColTop cbs).filter (fun b => b.column == c && b.top == t) =
          cbs.filter (fun b => b.column == c && b.top == t) := by
  refine ⟨List.perm_insertionSort colTopLe cbs,
    List.sorted_insertionSort colTopLe cbs, rfl, ?_⟩
  intro c t
  refine filter_insertionSort_ties colTopLe _ ?_ cbs
  intro x y hx hy
  simp only [Bool.and_eq_true, beq_iff_eq] at hx hy
  exact Or.inr ⟨hx.1.trans hy.1.symm, le_of_eq (hx.2.trans hy.2.symm)⟩

/-- Claim C3 counterexample: two fragments of the same `(column, slot)`
group with equal tops and decreasing lefts. The spec's assembler orders
them `(top, left)` ascending, the source keeps input order, so the
output texts differ. -/
theorem C3_counterexample :
    spec_assemble [⟨"B", 100, 0, 1, 0⟩, ⟨"A", 50, 0, 1, 0⟩] = "A\nB" ∧
      assembleBlocks
          (([⟨"B", 100, 0, 1, 0⟩, ⟨"A", 50, 0, 1, 0⟩] : List SBlock).map SBlock.toC) =
        "B\nA" ∧
      ("A\nB" : String) ≠ "B\nA" := by
  refine ⟨by decide, by decide, by decide⟩

/-!
String.intercalate algebra, needed to flatten the spec assembler's
join-of-joins into a single join.
-/

/-- The accumulator of `String.intercalate.go` factors out on the left. -/
theorem intercalate_go_append (s : String) :
    ∀ (l : List String) (acc₁ acc₂ : String),
      String.intercalate.go (acc₁ ++ acc₂) s l =
        acc₁ ++ String.intercalate.go acc₂ s l := by
  intro l
  induction l with
  | nil => intro acc₁ acc₂; rfl
  | cons a as ih =>
    intro acc₁ acc₂
    show String.intercalate.go (acc₁ ++ acc₂ ++ s ++ a) s as =
      acc₁ ++ String.intercalate.go (acc₂ ++ s ++ a) s as
    rw [String.append_assoc (acc₁ ++ acc₂) s a, String.append_assoc acc₁ acc₂ (s ++ a),
      ← String.append_assoc acc₂ s a]
    exact ih acc₁ (acc₂ ++ s ++ a)

/-- Unfolding `intercalate` over a cons with a non-empty tail. -/
theorem intercalate_cons (s a : String) {t : List String} (ht : t ≠ []) :
    String.intercalate s (a :: t) = a ++ s ++ String.intercalate s t := by
  cases t with
  | nil => exact absurd rfl ht
  | cons b bs =>
    show String.intercalate.go ((a ++ s) ++ b) s bs =
      (a ++ s) ++ String.intercalate.go b s bs
    exact intercalate_go_append s bs (a ++ s) b

/-- The join `intercalate` distributes over append of non-empty lists. -/
theorem intercalate_append (s : String) :
    ∀ (q m : List String), q ≠ [] → m ≠ [] →
      String.intercalate s (q ++ m) =
        String.intercalate s q ++ s ++ String.intercalate s m := by
  intro q
  induction q with
  | nil => intro m h _; exact absurd rfl h
  | cons a q' ih =>
    intro m _ hm
    cases q' with
    | nil =>
      rw [List.singleton_append, intercalate_cons s a hm]
      rfl
    | cons b bs =>
      have hq' : (b :: bs : List String) ≠ [] := by simp
      have hqm : ((b :: bs) ++ m : List String) ≠ [] := by simp
      rw [List.cons_append, intercalate_cons s a hqm, ih m hq' hm,
        intercalate_cons s a hq']
      simp [String.append_assoc]

/-- Joining the per-group joins equals joining the flattened fragments,
when no group is empty. -/
theorem intercalate_flatten (s : String) :
    ∀ parts : List (List String), (∀ q ∈ parts, q ≠ []) →
      String.intercalate s (parts.map (String.intercalate s)) =
        String.intercalate s parts.flatten := by
  intro parts
  induction parts with
  | nil => intro _; rfl
  | cons q qs ih =>
    intro hne
    have hq : q ≠ [] := hne q (List.mem_cons_self q qs)
    have hqs : ∀ p ∈ qs, p ≠ [] := fun p hp => hne p (List.mem_cons.mpr (Or.inr hp))
    cases qs with
    | nil =>
      show String.intercalate s [String.intercalate s q] = String.intercalate s (q ++ [])
      rw [List.append_nil]
      rfl
    | cons q' qs' =>
      have hmapne : ((q' :: qs').map (String.intercalate s)) ≠ [] := by simp
      have hflatne : (q' :: qs').flatten ≠ [] := by
        have hq' : q' ≠ [] := hqs q' (List.mem_cons_self q' qs')
        show (q' ++ qs'.flatten) ≠ []
        exact List.append_ne_nil_of_left_ne_nil hq' _
      show String.intercalate s
          (String.intercalate s q :: (q' :: qs').map (String.intercalate s)) =
        String.intercalate s (q ++ (q' :: qs').flatten)
      rw [intercalate_cons s _ hmapne, ih hqs,
        intercalate_append s q (q' :: qs').flatten hq hflatne]

/-!
Spec slot properties and order relations for the slot equivalence claim.
-/

/-- The spec slot is always strictly below the column's slot count. -/
theorem spec_slot_lt (minY height : Int) (c : Nat) (top : Int) :
    spec_slot minY height (slotsPerColumn c) top < slotsPerColumn c := by
  unfold spec_slot slotsPerColumn
  have hpos : 0 < 2 ^ (c - 1) := Nat.pos_pow_of_pos _ (by norm_num)
  exact lt_of_le_of_lt (min_le_right _ _) (Nat.sub_lt hpos one_pos)

/-- For a non-negative grid height the spec slot is monotone in `top`. -/
theorem spec_slot_mono (minY : Int) {height : Int} (hh : 0 ≤ height) (n : Nat)
    {t1 t2 : Int} (h : t1 ≤ t2) :
    spec_slot minY height n t1 ≤ spec_slot minY height n t2 := by
  unfold spec_slot
  by_cases h0 : height = 0
  · simp [h0]
  · have hpos : (0 : ℚ) < (height : ℚ) := by
      have h1 : 0 < height := lt_of_le_of_ne hh (Ne.symm h0)
      exact_mod_cast h1
    simp only [if_neg h0]
    refine min_le_min ?_ le_rfl
    refine Int.toNat_le_toNat (Int.floor_le_floor ?_)
    refine mul_le_mul_of_nonneg_right ?_ (by positivity)
    have hsub : ((t1 - minY : Int) : ℚ) ≤ ((t2 - minY : Int) : ℚ) := by
      exact_mod_cast sub_le_sub_right h minY
    exact (div_le_div_right hpos).mpr hsub

/-- Flattening groups in key order is pairwise-ordered provided groups
are internally ordered and cross-ordered along the key order. -/
theorem pairwise_flatMap_of {κ α : Type} (rK : κ → κ → Prop) (rA : α → α → Prop)
    (g : κ → List α) :
    ∀ ks : List κ, ks.Pairwise rK → (∀ k ∈ ks, (g k).Pairwise rA) →
      (∀ k k', rK k k' → ∀ a ∈ g k, ∀ b ∈ g k', rA a b) →
      (ks.flatMap g).Pairwise rA := by
  intro ks
  induction ks with
  | nil => intro _ _ _; simp
  | cons k ks ih =>
    intro hks hgrp hcross
    rw [List.flatMap_cons, List.pairwise_append]
    refine ⟨hgrp k (List.mem_cons_self k ks),
      ih (List.pairwise_cons.mp hks).2
        (fun k' h => hgrp k' (List.mem_cons.mpr (Or.inr h))) hcross, ?_⟩
    intro a ha b hb
    obtain ⟨k', hk', hbk'⟩ := List.mem_flatMap.mp hb
    exact hcross k k' ((List.pairwise_cons.mp hks).1 k' hk') a ha b hbk'

/-- Splitting a list into its fibers over a complete, duplicate-free key
list and concatenating them is a permutation of the list. -/
theorem flatMap_filter_key_perm :
    ∀ (ks : List (Nat × Nat)) (l : List SBlock), ks.Nodup →
      (∀ x ∈ l, SBlock.key x ∈ ks) →
      List.Perm (ks.flatMap fun k => l.filter fun b => b.key = k) l := by
  intro ks
  induction ks with
  | nil =>
    intro l _ hcov
    have hl : l = [] := List.eq_nil_iff_forall_not_mem.mpr fun a ha =>
      (List.not_mem_nil _ (hcov a ha))
    simp [hl]
  | cons k ks ih =>
    intro l hnd hcov
    have hknotin : k ∉ ks := (List.nodup_cons.mp hnd).1
    have hndk : ks.Nodup := (List.nodup_cons.mp hnd).2
    rw [List.flatMap_cons]
    have hrest : ∀ k' ∈ ks, (l.filter fun b => b.key = k') =
        ((l.filter fun b => ¬ (b.key = k)).filter fun b => b.key = k') := by
      intro k' hk'
      rw [List.filter_filter]
      refine (List.filter_congr ?_).symm
      intro x _
      by_cases hx : x.key = k'
      · have hkk : ¬ k' = k := fun hkk => hknotin (hkk ▸ hk')
        simp [hx, hkk]
      · simp [hx]
    have hcov' : ∀ x ∈ (l.filter fun b => ¬ (b.key = k)), SBlock.key x ∈ ks := by
      intro x hx
      have hxl : x ∈ l := List.mem_of_mem_filter hx
      have hxk : ¬ (x.key = k) := by simpa using List.of_mem_filter hx
      rcases List.mem_cons.mp (hcov x hxl) with h | h
      · exact absurd h hxk
      · exact h
    have hflat : (ks.flatMap fun k' => l.filter fun b => b.key = k') =
        (ks.flatMap fun k' => (l.filter fun b => ¬ (b.key = k)).filter
          fun b => b.key = k') := by
      rw [List.flatMap_def, List.flatMap_def]
      exact congrArg List.flatten (List.map_congr_left hrest)
    rw [hflat]
    have hperm' := ih (l.filter fun b => ¬ (b.key = k)) hndk hcov'
    refine List.Perm.trans (hperm'.append_left _) ?_
    have hneg : (l.filter fun b => ¬ (b.key = k)) =
        (l.filter fun b => !(decide (b.key = k))) :=
      List.filter_congr fun x _ => by simp [decide_not]
    rw [hneg]
    exact List.filter_append_perm _ l

/-- Replacing each part of a concatenation by a permutation of it
permutes the concatenation. -/
theorem flatMap_perm_of_parts {κ α : Type} (f g : κ → List α) :
    ∀ ks : List κ, (∀ k ∈ ks, List.Perm (f k) (g k)) →
      List.Perm (ks.flatMap f) (ks.flatMap g) := by
  intro ks
  induction ks with
  | nil => intro _; rfl
  | cons k ks ih =>
    intro h
    rw [List.flatMap_cons, List.flatMap_cons]
    exact List.Perm.append (h k (List.mem_cons_self k ks))
      (ih fun k' hk' => h k' (List.mem_cons.mpr (Or.inr hk')))

/-- Members of a spec group belong to the block list and carry its key. -/
theorem mem_spec_group {sbs : List SBlock} {k : Nat × Nat} {a : SBlock}
    (ha : a ∈ spec_group sbs k) : a ∈ sbs ∧ a.key = k := by
  unfold spec_group at ha
  have ha' := (List.mem_insertionSort topLeftLe).mp ha
  exact ⟨List.mem_of_mem_filter ha', by simpa using List.of_mem_filter ha'⟩

/-- The spec key list has no duplicates. -/
theorem spec_keys_nodup (sbs : List SBlock) : (spec_keys sbs).Nodup :=
  (List.perm_insertionSort keyLe (sbs.map SBlock.key).dedup).symm.nodup
    (List.nodup_dedup _)

/-- Every block's key occurs in the spec key list. -/
theorem spec_keys_cover {sbs : List SBlock} {b : SBlock} (hb : b ∈ sbs) :
    b.key ∈ spec_keys sbs :=
  (List.perm_insertionSort keyLe (sbs.map SBlock.key).dedup).symm.subset
    (List.mem_dedup.mpr (List.mem_map_of_mem SBlock.key hb))

/-- Every listed key names a non-empty group. -/
theorem spec_group_ne_nil {sbs : List SBlock} {k : Nat × Nat}
    (hk : k ∈ spec_keys sbs) : spec_group sbs k ≠ [] := by
  have hk' : k ∈ (sbs.map SBlock.key).dedup :=
    (List.perm_insertionSort keyLe (sbs.map SBlock.key).dedup).subset hk
  obtain ⟨b, hb, hbk⟩ := List.mem_map.mp (List.mem_dedup.mp hk')
  have hbf : b ∈ sbs.filter fun x => x.key = k := by
    rw [List.mem_filter]
    exact ⟨hb, by simpa using hbk⟩
  intro hnil
  have : b ∈ spec_group sbs k := by
    unfold spec_group
    exact (List.mem_insertionSort topLeftLe).mpr hbf
  rw [hnil] at this
  exact List.not_mem_nil b this

/-- Claim C4 (amended): the source assigns no slot at all; nevertheless,
whenever no two blocks share the same `(column, top)` pair and the grid
height is non-negative, its `(column, top)` ordering produces exactly
the text the spec's slot assignment (section 4.2 formula) followed by
the spec's `(column, slot)` grouping and assembly (section 4.3) would
produce; and the spec-derived slot always satisfies
`0 ≤ slot < slotsPerColumn[column]`. -/
theorem C4_no_slot_in_code (minY height : Int) (hh : 0 ≤ height) (cbs : List CBlock)
    (hinj : ∀ a ∈ cbs, ∀ b ∈ cbs, a.column = b.column → a.top = b.top → a = b) :
    spec_assemble (cbs.map (attachSlot minY height)) = assembleBlocks cbs ∧
      ∀ sb ∈ cbs.map (attachSlot minY height), sb.slot < slotsPerColumn sb.column := by
  classical
  refine ⟨?_, ?_⟩
  case refine_2 =>
    intro sb hsb
    obtain ⟨x, _, rfl⟩ := List.mem_map.mp hsb
    exact spec_slot_lt minY height x.column x.top
  set sbs := cbs.map (attachSlot minY height) with hsbs
  have hmem_attach : ∀ a ∈ sbs, ∃ x ∈ cbs, a = attachSlot minY height x := by
    intro a ha
    obtain ⟨x, hx, rfl⟩ := List.mem_map.mp ha
    exact ⟨x, hx, rfl⟩
  have hgroups : ∀ k ∈ spec_keys sbs,
      List.Perm (spec_group sbs k) (sbs.filter fun b => b.key = k) :=
    fun k _ => List.perm_insertionSort topLeftLe _
  have hpermflat : List.Perm ((spec_keys sbs).flatMap (spec_group sbs)) sbs := by
    refine List.Perm.trans (flatMap_perm_of_parts _ _ _ hgroups) ?_
    exact flatMap_filter_key_perm (spec_keys sbs) sbs (spec_keys_nodup sbs)
      (fun x hx => spec_keys_cover hx)
  have hsorted : ((spec_keys sbs).flatMap (spec_group sbs)).Pairwise colTopLeS := by
    refine pairwise_flatMap_of (fun k k' => keyLe k k' ∧ k ≠ k') colTopLeS
      (spec_group sbs) (spec_keys sbs) ?_ ?_ ?_
    · exact (List.sorted_insertionSort keyLe _).and (spec_keys_nodup sbs)
    · intro k _
      refine List.Pairwise.imp_of_mem ?_
        (List.sorted_insertionSort topLeftLe
          (sbs.filter fun b => b.key = k))
      intro a b ha hb hab
      have hak := (mem_spec_group ha).2
      have hbk := (mem_spec_group hb).2
      have hcol : a.column = b.column := by
        have hk : a.key.1 = b.key.1 := by rw [hak, hbk]
        exact hk
      unfold topLeftLe at hab
      rcases hab with h | ⟨h, _⟩
      · exact Or.inr ⟨hcol, le_of_lt h⟩
      · exact Or.inr ⟨hcol, le_of_eq h⟩
    · intro k k' hkk a ha b hb
      obtain ⟨hle, hne⟩ := hkk
      have hak := (mem_spec_group ha).2
      have hbk := (mem_spec_group hb).2
      unfold keyLe at hle
      rcases hle with h1 | ⟨h1, h2⟩
      · refine Or.inl ?_
        have hk : a.key.1 < b.key.1 := by rw [hak, hbk]; exact h1
        exact hk
      · have hcol : a.column = b.column := by
          have hk : a.key.1 = b.key.1 := by rw [hak, hbk]; exact h1
          exact hk
        have hslotlt : a.slot < b.slot := by
          have hs2 : k.2 ≠ k'.2 := fun he => hne (Prod.ext h1 he)
          have hk : a.key.2 < b.key.2 := by
            rw [hak, hbk]
            exact lt_of_le_of_ne h2 hs2
          exact hk
        obtain ⟨x, hxc, hxe⟩ := hmem_attach a (mem_spec_group ha).1
        obtain ⟨y, hyc, hye⟩ := hmem_attach b (mem_spec_group hb).1
        subst hxe
        subst hye
        refine Or.inr ⟨hcol, ?_⟩
        show x.top ≤ y.top
        by_contra hlt
        push_neg at hlt
        have hxy : x.column = y.column := hcol
        have hmono := spec_slot_mono minY hh (slotsPerColumn y.column) (le_of_lt hlt)
        have hge : (attachSlot minY height y).slot ≤ (attachSlot minY height x).slot := by
          show spec_slot minY height (slotsPerColumn y.column) y.top ≤
            spec_slot minY height (slotsPerColumn x.column) x.top
          rw [hxy]
          exact hmono
        exact absurd hslotlt (not_lt.mpr hge)
  have hcode : (List.insertionSort colTopLe cbs).map (attachSlot minY height) =
      List.insertionSort colTopLeS sbs := by
    rw [hsbs]
    refine List.map_insertionSort colTopLe colTopLeS (attachSlot minY height) cbs ?_
    intro a _ b _
    exact Iff.rfl
  have heq : (spec_keys sbs).flatMap (spec_group sbs) =
      List.insertionSort colTopLeS sbs := by
    refine eq_of_perm_of_sorted_on
      (List.Perm.trans hpermflat (List.perm_insertionSort colTopLeS sbs).symm)
      hsorted (List.sorted_insertionSort colTopLeS sbs) ?_
    intro a ha b hb hab hba
    have ha' : a ∈ sbs := hpermflat.subset ha
    have hb' : b ∈ sbs := hpermflat.subset hb
    obtain ⟨x, hxc, rfl⟩ := List.mem_map.mp ha'
    obtain ⟨y, hyc, rfl⟩ := List.mem_map.mp hb'
    unfold colTopLeS at hab hba
    have hcol : x.column = y.column := by
      rcases hab with h | ⟨h, _⟩
      · rcases hba with h' | ⟨h', _⟩
        · exact absurd h' (lt_asymm h)
        · exact h'.symm
      · exact h
    have htop : x.top = y.top := by
      rcases hab with h | ⟨_, h⟩
      · exact absurd hcol (ne_of_lt h)
      · rcases hba with h' | ⟨_, h'⟩
        · exact absurd hcol.symm (ne_of_lt h')
        · exact le_antisymm h h'
    rw [hinj x hxc y hyc hcol htop]
  have hne : ∀ q ∈ (spec_keys sbs).map fun k => (spec_group sbs k).map SBlock.text,
      q ≠ [] := by
    intro q hq
    obtain ⟨k, hk, rfl⟩ := List.mem_map.mp hq
    simpa using spec_group_ne_nil hk
  show spec_assemble sbs = assembleBlocks cbs
  unfold spec_assemble
  calc String.intercalate "\n" ((spec_keys sbs).map fun k =>
        String.intercalate "\n" ((spec_group sbs k).map SBlock.text))
      = String.intercalate "\n" (((spec_keys sbs).map fun k =>
          (spec_group sbs k).map SBlock.text).map (String.intercalate "\n")) := by
        rw [List.map_map]
        rfl
    _ = String.intercalate "\n" (((spec_keys sbs).map fun k =>
          (spec_group sbs k).map SBlock.text).flatten) :=
        intercalate_flatten "\n" _ hne
    _ = String.intercalate "\n"
          (((spec_keys sbs).flatMap (spec_group sbs)).map SBlock.text) := by
        rw [List.map_flatMap, List.flatMap_def]
    _ = String.intercalate "\n"
          ((List.insertionSort colTopLeS sbs).map SBlock.text) := by rw [heq]
    _ = String.intercalate "\n"
          (((List.insertionSort colTopLe cbs).map (attachSlot minY height)).map
            SBlock.text) := by rw [hcode]
    _ = String.intercalate "\n"
          ((List.insertionSort colTopLe cbs).map CBlock.text) := by
        rw [List.map_map]
        rfl
    _ = assembleBlocks cbs := rfl

/-- Claim C4 witness: two blocks with distinct `(column, top)` pairs on
a height-10 grid. -/
theorem C4_no_slot_in_code_witness :
    (0 : Int) ≤ 10 ∧
      (∀ a ∈ ([⟨"a", 0, 0, 1⟩, ⟨"b", 100, 10, 2⟩] : List CBlock),
        ∀ b ∈ ([⟨"a", 0, 0, 1⟩, ⟨"b", 100, 10, 2⟩] : List CBlock),
          a.column = b.column → a.top = b.top → a = b) ∧
      (spec_assemble (([⟨"a", 0, 0, 1⟩, ⟨"b", 100, 10, 2⟩] : List CBlock).map
            (attachSlot 0 10)) =
          assembleBlocks [⟨"a", 0, 0, 1⟩, ⟨"b", 100, 10, 2⟩] ∧
        ∀ sb ∈ ([⟨"a", 0, 0, 1⟩, ⟨"b", 100, 10, 2⟩] : List CBlock).map
            (attachSlot 0 10),
          sb.slot < slotsPerColumn sb.column) :=
  ⟨by decide, by decide,
    C4_no_slot_in_code 0 10 (by decide) [⟨"a", 0, 0, 1⟩, ⟨"b", 100, 10, 2⟩]
      (by decide)⟩

/-- Claim C4 counterexample: on `c4In` the pipeline's text is not the
text that the spec's slot assignment plus `(column, slot)` assembly
produce, so the classifier cannot be assigning the specified slots. -/
theorem C4_counterexample :
    (sort_pedigree_blocks_by_columns c4In).map SortResult.text =
        some "B\nA\nc2\nc3\nc4" ∧
      spec_slot_pipeline_text c4In = some "A\nB\nc2\nc3\nc4" ∧
      ("B\nA\nc2\nc3\nc4" : String) ≠ "A\nB\nc2\nc3\nc4" := by
  refine ⟨by decide, ?_, by decide⟩
  have h1 : spec_slot_pipeline_text c4In =
      some (spec_assemble (c4L.map (attachSlot 0 0))) := rfl
  have h2 : c4L = [⟨"B", 5, 0, 1⟩, ⟨"A", 0, 0, 1⟩, ⟨"c2", 100, 0, 2⟩,
      ⟨"c3", 200, 0, 3⟩, ⟨"c4", 300, 0, 4⟩] := by decide
  have h3 : c4L.map (attachSlot 0 0) =
      ([⟨"B", 5, 0, 1, 0⟩, ⟨"A", 0, 0, 1, 0⟩, ⟨"c2", 100, 0, 2, 0⟩,
        ⟨"c3", 200, 0, 3, 0⟩, ⟨"c4", 300, 0, 4, 0⟩] : List SBlock) := by
    rw [h2]
    simp [attachSlot, spec_slot_height_zero]
  rw [h1, h3]
  decide

/-!
Claim C6: determinism under input reordering.
-/

/-- The post-extraction pipeline gives equal results on permuted block
lists, provided no two blocks share a `top` coordinate. -/
theorem pipelineCore_perm_eq (bl1 bl2 : List Block)
    (hpb : List.Perm bl1 bl2)
    (htp : bl1.Pairwise fun x y => x.top ≠ y.top) :
    pipelineCore bl1 = pipelineCore bl2 := by
  classical
  have ht : ∀ x ∈ bl1, ∀ y ∈ bl1, x.top = y.top → x = y := by
    intro x hx y hy he
    by_contra hne
    exact (htp.forall (fun a b h => h.symm) hx hy hne) he
  have hlen : bl1.length = bl2.length := hpb.length_eq
  have hempty : bl1.isEmpty = bl2.isEmpty := by
    cases bl1 with
    | nil => rw [hpb.symm.eq_nil]
    | cons x xs =>
      cases bl2 with
      | nil => exact absurd (hpb.eq_nil) (by simp)
      | cons y ys => rfl
  have hxpos : xPositions bl1 = xPositions bl2 := by
    unfold xPositions
    refine eq_of_perm_of_sorted_on ?_ (List.sorted_insertionSort _ _)
      (List.sorted_insertionSort _ _) ?_
    · refine List.Perm.trans (List.perm_insertionSort _ _)
        (List.Perm.trans ?_ (List.perm_insertionSort _ _).symm)
      exact (hpb.map Block.left).dedup
    · intro a _ b _ hab hba
      exact le_antisymm hab hba
  have htop3 : top3GapsOf bl1 = top3GapsOf bl2 := by
    unfold top3GapsOf
    rw [hxpos]
  have hcb : columnBoundariesOf bl1 = columnBoundariesOf bl2 := by
    unfold columnBoundariesOf
    rw [htop3]
  have hfall : fallbackSort bl1 = fallbackSort bl2 := by
    unfold fallbackSort
    refine eq_of_perm_of_sorted_on ?_ (List.sorted_insertionSort _ _)
      (List.sorted_insertionSort _ _) ?_
    · exact List.Perm.trans (List.perm_insertionSort _ _)
        (List.Perm.trans hpb (List.perm_insertionSort _ _).symm)
    · intro a ha b hb hab hba
      have ha' : a ∈ bl1 := (List.mem_insertionSort leftTopLe).mp ha
      have hb' : b ∈ bl1 := (List.mem_insertionSort leftTopLe).mp hb
      unfold leftTopLe at hab hba
      have htopeq : a.top = b.top := by
        rcases hab with h | ⟨h, h'⟩
        · rcases hba with h2 | ⟨h2, _⟩
          · exact absurd h2 (lt_asymm h)
          · exact absurd h2 (ne_of_gt h)
        · rcases hba with h2 | ⟨_, h2'⟩
          · exact absurd h (ne_of_gt h2)
          · exact le_antisymm h' h2'
      exact ht a ha' b hb' htopeq
  have hsortc : ∀ b0 b1 b2 : Int,
      sortBlocksColTop (classify b0 b1 b2 bl1) =
        sortBlocksColTop (classify b0 b1 b2 bl2) := by
    intro b0 b1 b2
    unfold sortBlocksColTop
    refine eq_of_perm_of_sorted_on ?_ (List.sorted_insertionSort _ _)
      (List.sorted_insertionSort _ _) ?_
    · refine List.Perm.trans (List.perm_insertionSort _ _)
        (List.Perm.trans ?_ (List.perm_insertionSort _ _).symm)
      exact hpb.map _
    · intro u hu v hv huv hvu
      have hu' := (List.mem_insertionSort colTopLe).mp hu
      have hv' := (List.mem_insertionSort colTopLe).mp hv
      obtain ⟨x, hx, rfl⟩ := List.mem_map.mp hu'
      obtain ⟨y, hy, rfl⟩ := List.mem_map.mp hv'
      unfold colTopLe at huv hvu
      have htopeq : x.top = y.top := by
        rcases huv with h | ⟨h, h'⟩
        · rcases hvu with h2 | ⟨h2, _⟩
          · exact absurd h2 (lt_asymm h)
          · exact absurd h2 (ne_of_gt h)
        · rcases hvu with h2 | ⟨_, h2'⟩
          · exact absurd h (ne_of_gt h2)
          · exact le_antisymm h' h2'
      rw [ht x hx y hy htopeq]
  have hcount : ∀ b0 b1 b2 : Int,
      colCounts (classify b0 b1 b2 bl1) = colCounts (classify b0 b1 b2 bl2) := by
    intro b0 b1 b2
    funext c
    exact (hpb.map _).countP_eq _
  unfold pipelineCore
  rw [hempty, hxpos, hlen, hcb, htop3, hfall]
  by_cases he : bl2.isEmpty
  · rw [if_pos he, if_pos he]
  · rw [if_neg he, if_neg he]
    by_cases hg : (mkGaps (xPositions bl2)).length < 3
    · rw [if_pos hg, if_pos hg]
    · rw [if_neg hg, if_neg hg]
      cases hm : columnBoundariesOf bl2 with
      | nil => rfl
      | cons b0 t0 =>
        cases t0 with
        | nil => rfl
        | cons b1 t1 =>
          cases t1 with
          | nil => rfl
          | cons b2 t2 =>
            cases t2 with
            | nil =>
              simp only []
              rw [hsortc b0 b1 b2, hcount b0 b1 b2]
            | cons b3 t3 => rfl

/-- Claim C6 (amended): on two inputs whose post-header annotation lists
are permutations of each other, the pipeline returns *identical* results
(text and every diagnostic field) provided no two retained blocks share
the same `top` coordinate; with such ties the output depends on the
input order (see the counterexample). -/
theorem C6_determinism (a1 a2 : List Annotation) (bl1 : List Block)
    (hlen : a1.length = a2.length)
    (hperm : List.Perm (a1.drop 1) (a2.drop 1))
    (hb1 : extractBlocks (a1.drop 1) = some bl1)
    (htp : bl1.Pairwise fun x y => x.top ≠ y.top) :
    sort_pedigree_blocks_by_columns a1 = sort_pedigree_blocks_by_columns a2 := by
  obtain ⟨bl2, hb2, hpb⟩ := extractBlocks_perm_some hperm hb1
  unfold sort_pedigree_blocks_by_columns
  by_cases hsmall : a1.length ≤ 1
  · rw [if_pos hsmall, if_pos (by omega)]
  · rw [if_neg hsmall, if_neg (by omega)]
    rw [hb1, hb2]
    show pipelineCore bl1 = pipelineCore bl2
    exact pipelineCore_perm_eq bl1 bl2 hpb htp

/-- Claim C6 witness: the reordered inputs with pairwise distinct tops. -/
theorem C6_determinism_witness :
    c6InA.length = c6InB.length ∧
      List.Perm (c6InA.drop 1) (c6InB.drop 1) ∧
      extractBlocks (c6InA.drop 1) = some c6Bl ∧
      (c6Bl.Pairwise fun x y => x.top ≠ y.top) ∧
      sort_pedigree_blocks_by_columns c6InA = sort_pedigree_blocks_by_columns c6InB :=
  ⟨by decide, by decide, rfl, by decide,
    C6_determinism c6InA c6InB c6Bl (by decide) (by decide) rfl (by decide)⟩

/-- Claim C6 counterexample: the same block set fed in two orders gives
two different `orderedText` values, because the stable `(column, top)`
sort keeps the engine's emission order for blocks that tie on both
column and top. -/
theorem C6_counterexample :
    List.Perm (c6TieA.drop 1) (c6TieB.drop 1) ∧
      (sort_pedigree_blocks_by_columns c6TieA).map SortResult.text =
        some "X\nY\nc2\nc3\nc4" ∧
      (sort_pedigree_blocks_by_columns c6TieB).map SortResult.text =
        some "Y\nX\nc2\nc3\nc4" ∧
      (some "X\nY\nc2\nc3\nc4" : Option String) ≠ some "Y\nX\nc2\nc3\nc4" := by
  refine ⟨by decide, by decide, by decide, by decide⟩
